import Mathlib

/-!
Verification of the Streaming Render Core of markstream-cli.

Strings are modelled as lists of UTF-16 code units (`List Nat`), matching the
JavaScript source, which indexes strings by code unit (`charCodeAt`,
`slice`, `length`).  All definitions are shallow embeddings of the functions
in `packages/terminal/src/terminal.ts`, `src/stream-to-terminal.ts` (the
stream renderer), `src/markdown-node-utils.ts` and
`src/normalize-markdown-input.ts`.
-/

namespace Markstream

/-- `TerminalPos` from terminal.ts: 1-based line and column. -/
structure TerminalPos where
  line : Nat
  column : Nat
deriving DecidableEq, Repr

/-- The CSI scan inside `skipAnsi`: from index `i`, consume bytes until one in
`0x40..0x7E` (inclusive, the final byte) and return the index just after it,
or `text.length` when the sequence never terminates. -/
def csiScan (text : List Nat) (i : Nat) : Nat :=
  if h : i < text.length then
    if 0x40 ≤ text.get ⟨i, h⟩ ∧ text.get ⟨i, h⟩ ≤ 0x7E then i + 1
    else csiScan text (i + 1)
  else text.length
termination_by text.length - i

/-- `skipAnsi(text, start)` from terminal.ts: if `text[start]` is ESC (0x1B)
and `text[start+1]` is `[` (0x5B), consume a CSI sequence; if `text[start+1]`
is any other unit, consume exactly two units; otherwise (not ESC, or ESC at
the very last index) no escape.  Returns the index just after the escape. -/
def skipAnsi (text : List Nat) (start : Nat) : Option Nat :=
  if text[start]? ≠ some 0x1B then none
  else
    match text[start + 1]? with
    | some next => if next = 0x5B then some (csiScan text (start + 2)) else some (start + 2)
    | none => none

theorem csiScan_le (text : List Nat) (i : Nat) : csiScan text i ≤ text.length := by
  rw [csiScan]
  split
  · split
    · omega
    · exact csiScan_le text (i + 1)
  · exact Nat.le_refl _
termination_by text.length - i

theorem csiScan_ge (text : List Nat) (i : Nat) (h : i ≤ text.length) :
    i ≤ csiScan text i := by
  rw [csiScan]
  split
  · split
    · omega
    · exact Nat.le_trans (Nat.le_succ i) (csiScan_ge text (i + 1) (by omega))
  · exact h
termination_by text.length - i

theorem skipAnsi_some (text : List Nat) (start j : Nat)
    (h : skipAnsi text start = some j) : start < j ∧ j ≤ text.length := by
  unfold skipAnsi at h
  split at h
  · exact absurd h (by simp)
  · rename_i hesc
    rw [not_not] at hesc
    have hstart : start < text.length := (List.getElem?_eq_some.mp hesc).1
    split at h
    · rename_i next hnext
      have hstart1 : start + 1 < text.length := (List.getElem?_eq_some.mp hnext).1
      split at h
      · have hj := Option.some.inj h
        subst hj
        refine ⟨?_, csiScan_le text (start + 2)⟩
        have := csiScan_ge text (start + 2) (by omega)
        omega
      · have hj := Option.some.inj h
        omega
    · exact absurd h (by simp)

/-- `stripAnsi` from terminal.ts, as the index loop from position `i`:
skip `\r` (13), skip ANSI escapes, keep everything else. -/
def stripAnsiLoop (text : List Nat) (i : Nat) : List Nat :=
  if h : i < text.length then
    if text.get ⟨i, h⟩ = 13 then stripAnsiLoop text (i + 1)
    else
      match hs : skipAnsi text i with
      | some skipped => stripAnsiLoop text skipped
      | none => text.get ⟨i, h⟩ :: stripAnsiLoop text (i + 1)
  else []
termination_by text.length - i
decreasing_by
  · omega
  · have := skipAnsi_some text i skipped hs; omega
  · omega

/-- `stripAnsi(text)`: remove `\r` and ANSI escape sequences. -/
def stripAnsi (text : List Nat) : List Nat := stripAnsiLoop text 0

/-- `visibleLength` from terminal.ts, as the index loop from position `i`:
count code units with `\r` and ANSI escapes skipped. -/
def visibleLengthLoop (text : List Nat) (i : Nat) : Nat :=
  if h : i < text.length then
    if text.get ⟨i, h⟩ = 13 then visibleLengthLoop text (i + 1)
    else
      match hs : skipAnsi text i with
      | some skipped => visibleLengthLoop text skipped
      | none => visibleLengthLoop text (i + 1) + 1
  else 0
termination_by text.length - i
decreasing_by
  · omega
  · have := skipAnsi_some text i skipped hs; omega
  · omega

/-- `visibleLength(text)` from terminal.ts. -/
def visibleLength (text : List Nat) : Nat := visibleLengthLoop text 0

/-- The first loop of `indexToPos`: scan indices `i < clamped`, skipping
escapes, counting newlines into `line` and remembering `lastNl + 1`
(the source keeps `lastNl`, initially `-1`; we carry `lastNl + 1`,
initially `0`, to stay in `Nat`). -/
def indexToPosLineLoop (text : List Nat) (clamped i line lastNl1 : Nat) : Nat × Nat :=
  if i < clamped then
    match hs : skipAnsi text i with
    | some skipped => indexToPosLineLoop text clamped skipped line lastNl1
    | none =>
      if text[i]? = some 10 then
        indexToPosLineLoop text clamped (i + 1) (line + 1) (i + 1)
      else indexToPosLineLoop text clamped (i + 1) line lastNl1
  else (line, lastNl1)
termination_by clamped - i
decreasing_by
  · have := skipAnsi_some text i skipped hs; omega
  · omega
  · omega

/-- The second loop of `indexToPos`: from `lastNl + 1`, count visible
(non-escape) code units into `column`. -/
def indexToPosColLoop (text : List Nat) (clamped i column : Nat) : Nat :=
  if i < clamped then
    match hs : skipAnsi text i with
    | some skipped => indexToPosColLoop text clamped skipped column
    | none => indexToPosColLoop text clamped (i + 1) (column + 1)
  else column
termination_by clamped - i
decreasing_by
  · have := skipAnsi_some text i skipped hs; omega
  · omega

/-- `indexToPos(text, index)` from terminal.ts.  The source clamps the index
with `Math.max(0, Math.min(index, text.length))`; the index is a `Nat` here,
so only the upper clamp remains. -/
def indexToPos (text : List Nat) (index : Nat) : TerminalPos :=
  let clamped := min index text.length
  let ln := indexToPosLineLoop text clamped 0 1 0
  ⟨ln.1, indexToPosColLoop text clamped ln.2 1⟩

/-- The loop of `posToIndex`: return the first index whose cursor is at or
past the requested `(line, column)`, clamped to `text.length` if overshot.
The early return in the newline branch fires after `currentLine` was
incremented and `i` advanced, hence `i + 1`. -/
def posToIndexLoop (text : List Nat) (line column i curLine visCol : Nat) : Nat :=
  if i < text.length then
    if curLine = line ∧ column ≤ visCol then i
    else
      match hs : skipAnsi text i with
      | some skipped => posToIndexLoop text line column skipped curLine visCol
      | none =>
        if text[i]? = some 10 then
          if line < curLine + 1 then i + 1
          else posToIndexLoop text line column (i + 1) (curLine + 1) 1
        else
          posToIndexLoop text line column (i + 1) curLine
            (if curLine = line then visCol + 1 else visCol)
  else text.length
termination_by text.length - i
decreasing_by
  · have := skipAnsi_some text i skipped hs; omega
  · omega
  · omega

/-- `posToIndex(text, pos)` from terminal.ts. -/
def posToIndex (text : List Nat) (pos : TerminalPos) : Nat :=
  posToIndexLoop text (max 1 pos.line) (max 1 pos.column) 0 1 1

/-! ## The common position scan

`indexToPos` and `posToIndex` both step through the text from index 0,
skipping ANSI escapes and tracking the `(line, column)` of the cursor and
the index just after the last newline.  `ScanState` is that cursor state;
`ScanStep` is one iteration of the common loop; a position is *reachable*
when the scan starting from `⟨0, 1, 1, 0⟩` passes through it. -/

structure ScanState where
  i : Nat
  line : Nat
  col : Nat
  lastNl1 : Nat
deriving DecidableEq, Repr

/-- One iteration of the scan shared by `indexToPos` and `posToIndex`. -/
inductive ScanStep (text : List Nat) : ScanState → ScanState → Prop
  | esc (i line col n j : Nat) : skipAnsi text i = some j →
      ScanStep text ⟨i, line, col, n⟩ ⟨j, line, col, n⟩
  | nl (i line col n : Nat) : skipAnsi text i = none → text[i]? = some 10 →
      ScanStep text ⟨i, line, col, n⟩ ⟨i + 1, line + 1, 1, i + 1⟩
  | vis (i line col n : Nat) : i < text.length → skipAnsi text i = none →
      text[i]? ≠ some 10 →
      ScanStep text ⟨i, line, col, n⟩ ⟨i + 1, line, col + 1, n⟩

/-- The reflexive-transitive closure of `ScanStep`. -/
inductive Scan (text : List Nat) : ScanState → ScanState → Prop
  | refl (s : ScanState) : Scan text s s
  | head (s s' s'' : ScanState) : ScanStep text s s' → Scan text s' s'' →
      Scan text s s''

theorem Scan.tail {text : List Nat} {s s' s'' : ScanState}
    (h : Scan text s s') (hstep : ScanStep text s' s'') : Scan text s s'' := by
  induction h with
  | refl s => exact Scan.head s s'' s'' hstep (Scan.refl s'')
  | head a b c hab _ ih => exact Scan.head a b s'' hab (ih hstep)

theorem Scan.trans {text : List Nat} {s s' s'' : ScanState}
    (h : Scan text s s') (h' : Scan text s' s'') : Scan text s s'' := by
  induction h with
  | refl _ => exact h'
  | head a b c hab _ ih => exact Scan.head a b s'' hab (ih h')

theorem ScanStep.i_lt {text : List Nat} {s s' : ScanState}
    (h : ScanStep text s s') : s.i < s'.i := by
  cases h with
  | esc i line col n j hj => exact (skipAnsi_some text i j hj).1
  | nl i line col n _ _ => exact Nat.lt_succ_self i
  | vis i line col n _ _ _ => exact Nat.lt_succ_self i

theorem ScanStep.dst_le_length {text : List Nat} {s s' : ScanState}
    (h : ScanStep text s s') : s'.i ≤ text.length := by
  cases h with
  | esc i line col n j hj => exact (skipAnsi_some text i j hj).2
  | nl i line col n _ h10 =>
    exact Nat.succ_le_of_lt (List.getElem?_eq_some.mp h10).1
  | vis i line col n hi _ _ => exact Nat.succ_le_of_lt hi

theorem Scan.i_le {text : List Nat} {s s' : ScanState}
    (h : Scan text s s') : s.i ≤ s'.i := by
  induction h with
  | refl _ => exact Nat.le_refl _
  | head a b c hab _ ih => exact Nat.le_trans (Nat.le_of_lt hab.i_lt) ih

theorem Scan.line_le {text : List Nat} {s s' : ScanState}
    (h : Scan text s s') : s.line ≤ s'.line := by
  induction h with
  | refl _ => exact Nat.le_refl _
  | head a b c hab _ ih =>
    refine Nat.le_trans ?_ ih
    cases hab with
    | esc _ _ _ _ _ _ => exact Nat.le_refl _
    | nl _ _ _ _ _ _ => exact Nat.le_succ _
    | vis _ _ _ _ _ _ _ => exact Nat.le_refl _

theorem Scan.i_le_length {text : List Nat} {s s' : ScanState}
    (h : Scan text s s') (hs : s.i ≤ text.length) : s'.i ≤ text.length := by
  induction h with
  | refl _ => exact hs
  | head a b c hab _ ih => exact ih hab.dst_le_length

theorem Scan.one_le_col {text : List Nat} {s s' : ScanState}
    (h : Scan text s s') (hs : 1 ≤ s.col) : 1 ≤ s'.col := by
  induction h with
  | refl _ => exact hs
  | head a b c hab _ ih =>
    apply ih
    cases hab with
    | esc _ _ _ _ _ _ => exact hs
    | nl _ _ _ _ _ _ => exact Nat.le_refl _
    | vis i line col n _ _ _ => exact Nat.succ_le_succ (Nat.zero_le col)

theorem ScanStep.src_lt_length {text : List Nat} {s s' : ScanState}
    (h : ScanStep text s s') : s.i < text.length := by
  cases h with
  | esc i line col n j hj =>
    have h1 := skipAnsi_some text i j hj
    exact Nat.lt_of_lt_of_le h1.1 h1.2
  | nl i line col n _ h10 => exact (List.getElem?_eq_some.mp h10).1
  | vis i line col n hi _ _ => exact hi

/-- Running the first loop of `indexToPos` from any state the scan passes
through, with the scan's endpoint as the bound, yields the endpoint's line
and last-newline data. -/
theorem indexToPosLineLoop_scan {text : List Nat} {s t : ScanState}
    (h : Scan text s t) :
    indexToPosLineLoop text t.i s.i s.line s.lastNl1 = (t.line, t.lastNl1) := by
  induction h with
  | refl s => rw [indexToPosLineLoop]; simp
  | head a b c hab hbc ih =>
    have hlt : a.i < c.i := Nat.lt_of_lt_of_le hab.i_lt hbc.i_le
    rw [indexToPosLineLoop, if_pos hlt]
    cases hab with
    | esc i line col n j hj =>
      split
      · rename_i skipped hsk
        rw [hj] at hsk
        cases Option.some.inj hsk
        exact ih
      · rename_i hsk
        rw [hj] at hsk
        exact absurd hsk (by simp)
    | nl i line col n hsk h10 =>
      split
      · rename_i skipped hsk'
        rw [hsk] at hsk'
        exact absurd hsk' (by simp)
      · rw [if_pos h10]
        exact ih
    | vis i line col n hi hsk h10 =>
      split
      · rename_i skipped hsk'
        rw [hsk] at hsk'
        exact absurd hsk' (by simp)
      · rw [if_neg h10]
        exact ih

/-- Running the column loop of `indexToPos` along a scan segment that stays
on one line counts exactly the visible code units of that segment. -/
theorem indexToPosColLoop_scan {text : List Nat} {s t : ScanState}
    (h : Scan text s t) (hline : t.line = s.line) :
    indexToPosColLoop text t.i s.i s.col = t.col := by
  induction h with
  | refl s => rw [indexToPosColLoop]; simp
  | head a b c hab hbc ih =>
    have hlt : a.i < c.i := Nat.lt_of_lt_of_le hab.i_lt hbc.i_le
    rw [indexToPosColLoop, if_pos hlt]
    cases hab with
    | esc i line col n j hj =>
      split
      · rename_i skipped hsk
        rw [hj] at hsk
        cases Option.some.inj hsk
        exact ih hline
      · rename_i hsk
        rw [hj] at hsk
        exact absurd hsk (by simp)
    | nl i line col n hsk h10 =>
      exfalso
      have h1 : line + 1 ≤ c.line := hbc.line_le
      have h2 : c.line = line := hline
      omega
    | vis i line col n hi hsk h10 =>
      split
      · rename_i skipped hsk'
        rw [hsk] at hsk'
        exact absurd hsk' (by simp)
      · exact ih hline

/-- Every scan state can also be reached by scanning from the start of its
own line (index `lastNl1`, column 1). -/
theorem scan_from_line_start {text : List Nat} {s t : ScanState}
    (h : Scan text s t)
    (hs : Scan text ⟨s.lastNl1, s.line, 1, s.lastNl1⟩ s) :
    Scan text ⟨t.lastNl1, t.line, 1, t.lastNl1⟩ t := by
  induction h with
  | refl _ => exact hs
  | head a b c hab hbc ih =>
    apply ih
    cases hab with
    | esc i line col n j hj => exact hs.tail (ScanStep.esc i line col n j hj)
    | nl i line col n hsk h10 => exact Scan.refl _
    | vis i line col n hi hsk h10 =>
      exact hs.tail (ScanStep.vis i line col n hi hsk h10)

/-- `indexToPos` at a reachable index returns exactly the scan's line and
column at that index. -/
theorem indexToPos_scan {text : List Nat} {t : ScanState}
    (h : Scan text ⟨0, 1, 1, 0⟩ t) :
    indexToPos text t.i = ⟨t.line, t.col⟩ := by
  have hle : t.i ≤ text.length := h.i_le_length (Nat.zero_le _)
  unfold indexToPos
  simp only [Nat.min_eq_left hle]
  have h1 : indexToPosLineLoop text t.i 0 1 0 = (t.line, t.lastNl1) :=
    indexToPosLineLoop_scan h
  rw [h1]
  have h2 : indexToPosColLoop text t.i t.lastNl1 1 = t.col :=
    indexToPosColLoop_scan (scan_from_line_start h (Scan.refl _)) rfl
  rw [h2]

/-- The loop of `posToIndex`, started anywhere on the scan path towards a
target state on line `L`, column `C`, stops at the first scanned index whose
cursor is exactly `(L, C)`; that index is itself reachable. -/
theorem posToIndexLoop_scan {text : List Nat} {L C : Nat} {s t : ScanState}
    (hpath : Scan text s t) (htL : t.line = L) (htC : t.col = C)
    (hlt : t.i < text.length) (hC : 1 ≤ C)
    (hinit : Scan text ⟨0, 1, 1, 0⟩ s)
    (hline : s.line ≤ L) (hcol : s.line = L → s.col ≤ C) :
    ∃ u : ScanState, Scan text ⟨0, 1, 1, 0⟩ u ∧ u.line = L ∧ u.col = C ∧
      posToIndexLoop text L C s.i s.line (if s.line = L then s.col else 1) = u.i := by
  induction hpath with
  | refl s =>
    refine ⟨s, hinit, htL, htC, ?_⟩
    rw [posToIndexLoop, if_pos hlt, if_pos ?_]
    constructor
    · exact htL
    · rw [if_pos htL, htC]
  | head a b c hab hbc ih =>
    have hsrc : a.i < text.length := hab.src_lt_length
    by_cases hchk : a.line = L ∧ C ≤ (if a.line = L then a.col else 1)
    · have haL : a.line = L := hchk.1
      have hac : a.col = C := by
        have h1 := hchk.2
        rw [if_pos haL] at h1
        have h2 := hcol haL
        omega
      refine ⟨a, hinit, haL, hac, ?_⟩
      rw [posToIndexLoop, if_pos hsrc, if_pos hchk]
    · rw [posToIndexLoop, if_pos hsrc, if_neg hchk]
      cases hab with
      | esc i line col n j hj =>
        have hrec := ih htL htC hlt (hinit.tail (ScanStep.esc i line col n j hj))
          hline hcol
        split
        · rename_i skipped hsk
          rw [hj] at hsk
          cases Option.some.inj hsk
          exact hrec
        · rename_i hsk
          rw [hj] at hsk
          exact absurd hsk (by simp)
      | nl i line col n hsk h10 =>
        have hbL : line + 1 ≤ L := by
          have h1 : line + 1 ≤ c.line := hbc.line_le
          have h2 : c.line = L := htL
          omega
        have hrec := ih htL htC hlt (hinit.tail (ScanStep.nl i line col n hsk h10))
          hbL (fun _ => hC)
        simp only [ite_self] at hrec
        split
        · rename_i skipped hsk'
          rw [hsk] at hsk'
          exact absurd hsk' (by simp)
        · dsimp only
          rw [if_pos h10, if_neg (by omega)]
          exact hrec
      | vis i line col n hi hsk h10 =>
        have hcol' : line = L → col + 1 ≤ C := by
          intro hL
          have h1 : ¬ C ≤ (if line = L then col else 1) := by
            intro hc; exact hchk ⟨hL, hc⟩
          rw [if_pos hL] at h1
          omega
        have hrec := ih htL htC hlt (hinit.tail (ScanStep.vis i line col n hi hsk h10))
          hline hcol'
        split
        · rename_i skipped hsk'
          rw [hsk] at hsk'
          exact absurd hsk' (by simp)
        · rw [if_neg h10]
          by_cases hL : line = L
          · rw [if_pos hL, if_pos hL]
            rw [if_pos hL] at hrec
            exact hrec
          · rw [if_neg hL, if_neg hL]
            rw [if_neg hL] at hrec
            exact hrec

/-! ## Theorems for the claims about the ANSI scanner (C1, C2, C3) -/

/-- C1: for every text `T` and every position `p` reachable in `T` (the
cursor state of the scan at a reachable index `t.i`) that lies on a visible
character (`t.i` in range and not the start of an ANSI escape),
`indexToPos(T, posToIndex(T, p)) = p` where `p = indexToPos(T, t.i)`. -/
theorem indexToPos_posToIndex_roundtrip {text : List Nat} {t : ScanState}
    (h : Scan text ⟨0, 1, 1, 0⟩ t) (hlt : t.i < text.length)
    (hvis : skipAnsi text t.i = none) :
    indexToPos text (posToIndex text (indexToPos text t.i)) = indexToPos text t.i := by
  have hL1 : 1 ≤ t.line := h.line_le
  have hC1 : 1 ≤ t.col := h.one_le_col (Nat.le_refl 1)
  have hidx : indexToPos text t.i = ⟨t.line, t.col⟩ := indexToPos_scan h
  rw [hidx]
  obtain ⟨u, hu, huL, huC, hloop⟩ :=
    posToIndexLoop_scan h rfl rfl hlt hC1 (Scan.refl _) hL1 (fun _ => hC1)
  simp only [ite_self] at hloop
  have hpos : posToIndex text ⟨t.line, t.col⟩ = u.i := by
    unfold posToIndex
    simp only [Nat.max_eq_right hL1, Nat.max_eq_right hC1]
    exact hloop
  rw [hpos, indexToPos_scan hu, huL, huC]

unseal csiScan in
/-- Witness for C1 on `"\x1B[31ma\nb"`, at the reachable visible index 5
(the character `a`): the scan reaches it through the leading escape. -/
theorem indexToPos_posToIndex_roundtrip_witness :
    indexToPos [27, 91, 51, 49, 109, 97, 10, 98]
        (posToIndex [27, 91, 51, 49, 109, 97, 10, 98]
          (indexToPos [27, 91, 51, 49, 109, 97, 10, 98] 5)) =
      indexToPos [27, 91, 51, 49, 109, 97, 10, 98] 5 :=
  indexToPos_posToIndex_roundtrip
    (t := ⟨5, 1, 1, 0⟩)
    (Scan.head _ ⟨5, 1, 1, 0⟩ _
      (ScanStep.esc 0 1 1 0 5 (by decide)) (Scan.refl _))
    (by decide) (by decide)

/-- `visibleLength`'s loop counts exactly the units that `stripAnsi`'s loop
keeps: both skip `\r` and ANSI escapes in the same way. -/
theorem visibleLengthLoop_eq_length (text : List Nat) (i : Nat) :
    visibleLengthLoop text i = (stripAnsiLoop text i).length := by
  rw [visibleLengthLoop, stripAnsiLoop]
  by_cases h : i < text.length
  · rw [dif_pos h, dif_pos h]
    by_cases h13 : text.get ⟨i, h⟩ = 13
    · rw [if_pos h13, if_pos h13]
      exact visibleLengthLoop_eq_length text (i + 1)
    · rw [if_neg h13, if_neg h13]
      split
      · rename_i skipped hsk
        have hdec := (skipAnsi_some text i skipped hsk).1
        exact visibleLengthLoop_eq_length text skipped
      · rename_i hsk
        rw [List.length_cons, visibleLengthLoop_eq_length text (i + 1)]
  · rw [dif_neg h, dif_neg h]
    rfl
termination_by text.length - i
decreasing_by
  · omega
  · omega
  · omega

/-- C2 (amended): `visibleLength(s)` equals `|stripAnsi(s)|` for every
string; `stripAnsi` itself already removes `\r`, so no `\r` count is
subtracted. -/
theorem visibleLength_eq_stripAnsi_length (text : List Nat) :
    visibleLength text = (stripAnsi text).length :=
  visibleLengthLoop_eq_length text 0

unseal csiScan stripAnsiLoop visibleLengthLoop in
/-- C2 counterexample: on `"\rA"`, `visibleLength` is 1 but
`|stripAnsi(s)| - count('\r', s)` is `1 - 1 = 0`, because `stripAnsi`
already removes `\r`. -/
theorem visibleLength_ne_stripAnsi_sub_count :
    ¬ visibleLength [13, 65] =
        (stripAnsi [13, 65]).length - List.count 13 [13, 65] := by
  decide

/-- C3 (amended): in the position coordinate system of `indexToPos` and
`posToIndex`, columns count UTF-16 code units with ANSI escapes skipped:
every reachable index holding a unit that is not the start of an escape and
not `\n` — including `\r` and each half of a surrogate pair — advances the
column by exactly one. -/
theorem column_counts_code_units {text : List Nat} {t : ScanState}
    (h : Scan text ⟨0, 1, 1, 0⟩ t) (hlt : t.i < text.length)
    (hvis : skipAnsi text t.i = none) (h10 : text[t.i]? ≠ some 10) :
    indexToPos text t.i = ⟨t.line, t.col⟩ ∧
      indexToPos text (t.i + 1) = ⟨t.line, t.col + 1⟩ := by
  refine ⟨indexToPos_scan h, ?_⟩
  have hstep : ScanStep text t ⟨t.i + 1, t.line, t.col + 1, t.lastNl1⟩ :=
    ScanStep.vis t.i t.line t.col t.lastNl1 hlt hvis h10
  exact indexToPos_scan (h.tail hstep)

/-- Witness for the amended C3 on `"\rA"`: the `\r` at index 0 advances the
column from 1 to 2. -/
theorem column_counts_code_units_witness :
    indexToPos [13, 65] 0 = ⟨1, 1⟩ ∧ indexToPos [13, 65] 1 = ⟨1, 2⟩ :=
  column_counts_code_units (t := ⟨0, 1, 1, 0⟩) (Scan.refl _)
    (by decide) (by decide) (by decide)

/-! ## The anchored text surface

`_createAnchoredTextSurface` from terminal.ts.  The closure state (`text`,
`anchored`, the fixed `anchor` option) becomes `SurfaceState`; each method
returns the emitted patch together with the updated state. -/

/-- The `anchor` option: `cursor` (save/restore) or `home` (absolute). -/
inductive AnchorMode
  | cursor
  | home
deriving DecidableEq, Repr

/-- Closure state of `_createAnchoredTextSurface`. -/
structure SurfaceState where
  text : List Nat
  anchored : Bool
  anchor : AnchorMode
deriving DecidableEq, Repr

/-- `ansi.saveCursor` = `ESC 7` + `CSI s`. -/
def saveCursor : List Nat := [27, 55, 27, 91, 115]

/-- `ansi.restoreCursor` = `ESC 8` + `CSI u`. -/
def restoreCursor : List Nat := [27, 56, 27, 91, 117]

/-- `ansi.eraseToEnd` = `CSI J`. -/
def eraseToEnd : List Nat := [27, 91, 74]

/-- `ansi.eraseLineToEnd` = `CSI K`. -/
def eraseLineToEnd : List Nat := [27, 91, 75]

/-- `ansi.cursorHome` = `CSI H`. -/
def cursorHome : List Nat := [27, 91, 72]

/-- `ansi.carriageReturn` = `\r`. -/
def carriageReturn : List Nat := [13]

/-- Decimal digits of a number, as code units (for `${n}` interpolation). -/
def natDecimal (n : Nat) : List Nat := (Nat.toDigits 10 n).map Char.toNat

/-- `ansi.cursorDown(n)` = `CSI max(1,n) B`. -/
def cursorDown (n : Nat) : List Nat := [27, 91] ++ natDecimal (max 1 n) ++ [66]

/-- `ansi.cursorForward(n)` = `CSI max(1,n) C`. -/
def cursorForward (n : Nat) : List Nat := [27, 91] ++ natDecimal (max 1 n) ++ [67]

/-- `withEraseLineToEnd(rendered)`: insert `EL` before each `\n` (the
`rendered.replace(/\n/g, EL + '\n')`); an empty string is returned as is. -/
def withEraseLineToEnd : List Nat → List Nat
  | [] => []
  | c :: rest => (if c = 10 then eraseLineToEnd ++ [10] else [c]) ++ withEraseLineToEnd rest

/-- The surface's `moveTo(pos)`: origin return, then down `line-1` (with a
`\r`), then right `column-1`. -/
def moveTo (anchor : AnchorMode) (pos : TerminalPos) : List Nat :=
  let line := max 1 pos.line
  let column := max 1 pos.column
  let down := line - 1
  let right := column - 1
  (match anchor with
    | AnchorMode.home => cursorHome
    | AnchorMode.cursor => restoreCursor)
    ++ (if 0 < down then cursorDown down ++ carriageReturn else [])
    ++ (if 0 < right then cursorForward right else [])

/-- `applyInsert(text, at, insertion)` from terminal.ts. -/
def applyInsert (text : List Nat) (atPos : TerminalPos) (insertion : List Nat) : List Nat :=
  let index := posToIndex text atPos
  text.take index ++ insertion ++ text.drop index

/-- `surface.begin()`. -/
def surfBegin (s : SurfaceState) : List Nat × SurfaceState :=
  let s' : SurfaceState := { s with anchored := true }
  match s.anchor with
  | AnchorMode.home => (cursorHome, s')
  | AnchorMode.cursor => (carriageReturn ++ saveCursor, s')

/-- `surface.setText(nextText)`. -/
def surfSetText (s : SurfaceState) (nextText : List Nat) : List Nat × SurfaceState :=
  if s.anchored = false then
    let s' : SurfaceState := { s with text := nextText, anchored := true }
    match s.anchor with
    | AnchorMode.home =>
      (cursorHome ++ withEraseLineToEnd nextText ++ eraseToEnd, s')
    | AnchorMode.cursor =>
      (carriageReturn ++ saveCursor ++ withEraseLineToEnd nextText, s')
  else
    ((match s.anchor with
      | AnchorMode.home => cursorHome
      | AnchorMode.cursor => restoreCursor)
      ++ withEraseLineToEnd nextText ++ eraseToEnd,
     { s with text := nextText })

/-- `surface.append(delta)`; `if (!delta) return ''` keeps the state. -/
def surfAppend (s : SurfaceState) (delta : List Nat) : List Nat × SurfaceState :=
  if delta = [] then ([], s)
  else if s.anchored = false then
    let s' : SurfaceState := { s with text := s.text ++ delta, anchored := true }
    match s.anchor with
    | AnchorMode.home => (cursorHome ++ delta, s')
    | AnchorMode.cursor => (carriageReturn ++ saveCursor ++ delta, s')
  else (delta, { s with text := s.text ++ delta })

/-- `surface.setTextFrom(nextText, from)`. -/
def surfSetTextFrom (s : SurfaceState) (nextText : List Nat) (fromPos : TerminalPos) :
    List Nat × SurfaceState :=
  if s.anchored = false then
    let s' : SurfaceState := { s with text := nextText, anchored := true }
    match s.anchor with
    | AnchorMode.home =>
      (cursorHome ++ withEraseLineToEnd nextText ++ eraseToEnd, s')
    | AnchorMode.cursor =>
      (carriageReturn ++ saveCursor ++ withEraseLineToEnd nextText, s')
  else
    let fromIndex := posToIndex s.text fromPos
    let tail := nextText.drop fromIndex
    (moveTo s.anchor fromPos ++ withEraseLineToEnd tail ++ eraseToEnd,
     { s with text := nextText })

/-- `surface.insert(at, insertion)`; note the not-anchored branch emits the
`\r` + save-cursor prologue without consulting the anchor mode. -/
def surfInsert (s : SurfaceState) (atPos : TerminalPos) (insertion : List Nat) :
    List Nat × SurfaceState :=
  if insertion = [] then ([], s)
  else if s.anchored = false then
    let t := applyInsert s.text atPos insertion
    (carriageReturn ++ saveCursor ++ withEraseLineToEnd t,
     { s with text := t, anchored := true })
  else
    let index := posToIndex s.text atPos
    let t := applyInsert s.text atPos insertion
    (moveTo s.anchor atPos ++ withEraseLineToEnd (t.drop index) ++ eraseToEnd,
     { s with text := t })

/-- C4 (amended): on a not-yet-anchored surface in anchor mode `cursor`,
`insert(at, ins)` with non-empty `ins` emits the same patch and produces the
same state as `setText` of the text with `ins` inserted at
`posToIndex(T, at)`. -/
theorem insert_unanchored_cursor_eq_setText (s : SurfaceState) (atPos : TerminalPos)
    (ins : List Nat) (hanch : s.anchored = false)
    (hmode : s.anchor = AnchorMode.cursor) (hne : ins ≠ []) :
    surfInsert s atPos ins = surfSetText s (applyInsert s.text atPos ins) := by
  unfold surfInsert surfSetText
  rw [if_neg hne, if_pos hanch, if_pos hanch, hmode]

unseal csiScan posToIndexLoop in
/-- Witness for the amended C4 on the empty cursor-mode surface. -/
theorem insert_unanchored_cursor_eq_setText_witness :
    surfInsert ⟨[], false, AnchorMode.cursor⟩ ⟨1, 1⟩ [65] =
      surfSetText ⟨[], false, AnchorMode.cursor⟩
        (applyInsert [] ⟨1, 1⟩ [65]) :=
  insert_unanchored_cursor_eq_setText ⟨[], false, AnchorMode.cursor⟩ ⟨1, 1⟩ [65]
    rfl rfl (by decide)

unseal csiScan posToIndexLoop in
/-- C4 counterexample: in anchor mode `home`, the not-yet-anchored `insert`
emits the `\r` + save-cursor prologue (and no trailing `ED`), while
`setText` emits the cursor-home prologue with a trailing `ED`, so the claim
fails for the `home` half of "either anchor mode". -/
theorem insert_unanchored_home_ne_setText :
    surfInsert ⟨[], false, AnchorMode.home⟩ ⟨1, 1⟩ [65] ≠
      surfSetText ⟨[], false, AnchorMode.home⟩
        (applyInsert [] ⟨1, 1⟩ [65]) := by
  decide

/-- C9: `append('')` and `insert(p, '')` return the empty patch and leave
the surface state (text and anchored flag) unchanged, for every surface
state and position. -/
theorem append_insert_empty_frame (s : SurfaceState) (p : TerminalPos) :
    surfAppend s [] = ([], s) ∧ surfInsert s p [] = ([], s) :=
  ⟨rfl, rfl⟩

unseal csiScan indexToPosLineLoop indexToPosColLoop in
/-- C3 counterexample: the claim predicts that `\r` occupies no column and a
surrogate pair (here U+1F600, units `[55357, 56832]`) occupies one column,
so `indexToPos` after the two units of `"\rA"` would be column 2 and after
the two units of `"😀"` would be column 2; the code gives column 3 in both
cases, because every non-escape code unit counts. -/
theorem column_ignores_cr_and_pairs_false :
    (indexToPos [13, 65] 2).column = 3 ∧ ¬ (indexToPos [13, 65] 2).column = 2 ∧
      (indexToPos [55357, 56832] 2).column = 3 ∧
      ¬ (indexToPos [55357, 56832] 2).column = 2 := by
  decide

/-! ## Viewport clipping (stream renderer, `tailLines` / `renderAll`) -/

/-- `tailLines(text, maxLines)` from the stream renderer.  `maxLines` is a JS
number, modelled as `Int`; `!Number.isFinite(maxLines)` has no counterpart
(all `Int` values are finite), so only the `maxLines <= 0` guard remains.
`slice(Math.max(0, len - maxLines))` becomes `drop (len - maxLines).toNat`. -/
def tailLines (text : List Nat) (maxLines : Int) : List Nat :=
  if maxLines ≤ 0 then []
  else
    let rawLines := text.splitOn 10
    let rawLines' :=
      if 0 < rawLines.length ∧ rawLines.getLast? = some [] then rawLines.dropLast
      else rawLines
    let tail := rawLines'.drop ((rawLines'.length : Int) - maxLines).toNat
    List.intercalate [10] tail ++ [10]

/-- The viewport-clipping step at the end of `renderAll`:
`typeof viewportHeight === 'number' ? tailLines(full, viewportHeight) : full`. -/
def clipView (viewportHeight : Option Int) (full : List Nat) : List Nat :=
  match viewportHeight with
  | some n => tailLines full n
  | none => full

/-- The clipping formula exactly as the specification words it: split the
string on `\n`, drop one trailing empty segment if present, take the last
`N` segments, rejoin with `\n`, and append a single `\n`. -/
def specClipFormula (full : List Nat) (n : Int) : List Nat :=
  let segs := full.splitOn 10
  let segs' := if segs.getLast? = some [] then segs.dropLast else segs
  List.intercalate [10] (segs'.drop (segs'.length - n.toNat)) ++ [10]

/-- C5 (amended): for a line budget `N ≥ 1` the clipped view is exactly the
split / drop-trailing-empty / take-last-N / rejoin / append-`\n` formula;
when `N` is unset the renderer emits the unclipped string unchanged; but
when `N ≤ 0` is set, the renderer emits the empty string, not the unclipped
string. -/
theorem clipView_spec (full : List Nat) (n : Int) :
    (1 ≤ n → clipView (some n) full = specClipFormula full n) ∧
      clipView none full = full ∧
      (n ≤ 0 → clipView (some n) full = []) := by
  refine ⟨?_, rfl, ?_⟩
  · intro hn
    show tailLines full n = specClipFormula full n
    dsimp only [tailLines, specClipFormula]
    rw [if_neg (by omega : ¬ n ≤ (0 : Int))]
    by_cases hlast : (full.splitOn 10).getLast? = some ([] : List Nat)
    · have hpos : 0 < (full.splitOn 10).length := by
        cases h : full.splitOn 10 with
        | nil => rw [h] at hlast; exact absurd hlast (by simp)
        | cons a l => simp
      rw [if_pos ⟨hpos, hlast⟩, if_pos hlast]
      have hcount : (((full.splitOn 10).dropLast.length : Int) - n).toNat =
          (full.splitOn 10).dropLast.length - n.toNat := by omega
      rw [hcount]
    · rw [if_neg (fun hc => hlast hc.2), if_neg hlast]
      have hcount : (((full.splitOn 10).length : Int) - n).toNat =
          (full.splitOn 10).length - n.toNat := by omega
      rw [hcount]
  · intro hn
    show tailLines full n = []
    unfold tailLines
    rw [if_pos hn]

/-- Witness for the amended C5 on `"A\nB"` with budgets 2 and 0. -/
theorem clipView_spec_witness :
    clipView (some 2) [65, 10, 66] = specClipFormula [65, 10, 66] 2 ∧
      clipView none [65, 10, 66] = [65, 10, 66] ∧
      clipView (some 0) [65, 10, 66] = [] :=
  ⟨(clipView_spec [65, 10, 66] 2).1 (by decide),
   (clipView_spec [65, 10, 66] 2).2.1,
   (clipView_spec [65, 10, 66] 0).2.2 (by decide)⟩

/-- C5 counterexample: for `N = 0` the claim says the renderer emits the
unclipped string unchanged, but `tailLines` returns the empty string. -/
theorem clipView_zero_not_unclipped :
    clipView (some 0) [65, 10] ≠ [65, 10] := by decide

/-! ## The highlight cache key (stream renderer, `highlightKey`) -/

/-- `code.replace(/\n$/, '')`: strip exactly one trailing `\n` when present
(a JS regex `$` without the `m` flag matches only at the very end). -/
def stripTrailingNewline (code : List Nat) : List Nat :=
  if code.getLast? = some 10 then code.dropLast else code

/-- `highlightKey(code, language)` = `` language ++ "\u0000" ++ code.replace(/\n$/, '') ``. -/
def highlightKey (code language : List Nat) : List Nat :=
  language ++ [0] ++ stripTrailingNewline code

/-- C8 (amended): (i) for a fixed code string, distinct languages always
yield distinct cache keys; (ii) appending one `\n` to the code leaves the
key unchanged, provided the code does not already end in `\n` (the regex
strips exactly one trailing newline). -/
theorem highlightKey_lang_and_newline :
    (∀ code l1 l2 : List Nat, l1 ≠ l2 →
        highlightKey code l1 ≠ highlightKey code l2) ∧
      ∀ code lang : List Nat, code.getLast? ≠ some 10 →
        highlightKey (code ++ [10]) lang = highlightKey code lang := by
  constructor
  · intro code l1 l2 hne heq
    unfold highlightKey at heq
    rw [List.append_assoc, List.append_assoc] at heq
    exact hne (List.append_inj_left' heq rfl)
  · intro code lang h10
    unfold highlightKey stripTrailingNewline
    rw [if_pos (List.getLast?_concat code), if_neg h10, List.dropLast_concat]

/-- Witness for the amended C8: distinct languages `"a"`/`"b"` give distinct
keys, and `"x"` keys equally with `"x\n"`. -/
theorem highlightKey_lang_and_newline_witness :
    highlightKey [] [97] ≠ highlightKey [] [98] ∧
      highlightKey ([120] ++ [10]) [] = highlightKey [120] [] :=
  ⟨highlightKey_lang_and_newline.1 [] [97] [98] (by decide),
   highlightKey_lang_and_newline.2 [120] [] (by decide)⟩

/-- C8 counterexample: for `code = "x\n"` (already ending in `\n`),
`key(code + '\n') ≠ key(code)`: the regex strips only one trailing newline,
so the keys are `"\0x"` and `"\0x\n"`. -/
theorem highlightKey_trailing_newline_false :
    highlightKey ([120, 10] ++ [10]) [] ≠ highlightKey [120, 10] [] := by
  decide

/-! ## Input normalisation (`normalizeMarkdownInput`) -/

/-- The global regex replace in normalize-markdown-input.ts — pattern
`(^|\n)([\t ]*)<!--` with replacement `$1$2\<!--` — written as a
left-to-right scan over code units.  The flag is true exactly when the
current position can still extend a `(^|\n)[\t ]*` prefix: at the start of
the string, right after a `\n`, or after line-leading tabs/spaces (9, 32).
A match consumes `<!--` (60, 33, 45, 45), inserts a backslash (92) before
it, and resumes scanning right after the consumed `<!--`, exactly as the
global regex replace resumes after a match.  The greedy `[\t ]*` needs no
backtracking because a tab/space is never `<`. -/
def normalizeScan (b : Bool) : List Nat → List Nat
  | [] => []
  | c :: rest =>
    if c = 60 ∧ b ∧ rest.take 3 = [33, 45, 45] then
      92 :: 60 :: 33 :: 45 :: 45 :: normalizeScan false (rest.drop 3)
    else if c = 9 ∨ c = 32 then c :: normalizeScan b rest
    else c :: normalizeScan (c == 10) rest
termination_by l => l.length
decreasing_by
  · simp only [List.length_drop, List.length_cons]
    omega
  · simp
  · simp

/-- `normalizeMarkdownInput(markdown)`: escape line-leading `<!--`; the
`if (!markdown) return markdown` guard is the identity on the empty
string, which the scan also returns unchanged. -/
def normalizeMarkdownInput (markdown : List Nat) : List Nat :=
  normalizeScan true markdown

/-- When the flag is down, the scan copies the head unit unchanged and the
flag stays down unless the head is a newline. -/
theorem normalizeScan_false_head (c : Nat) (u : List Nat) :
    ∃ b', normalizeScan false (c :: u) = c :: normalizeScan b' u ∧
      (c = 10 ∨ b' = false) := by
  by_cases hws : c = 9 ∨ c = 32
  · refine ⟨false, ?_, Or.inr rfl⟩
    rw [normalizeScan, if_neg (by simp), if_pos hws]
  · refine ⟨c == 10, ?_, ?_⟩
    · rw [normalizeScan, if_neg (by simp), if_neg hws]
    · by_cases h10 : c = 10
      · exact Or.inl h10
      · exact Or.inr (by simp [h10])

/-- If the scan's output (with the flag down) starts with `!--`, so did the
input: with the flag down no backslash can be inserted before a newline is
seen, and `!--` contains no newline. -/
theorem normalizeScan_false_take3 (u : List Nat)
    (h : (normalizeScan false u).take 3 = [33, 45, 45]) :
    u.take 3 = [33, 45, 45] := by
  cases u with
  | nil => rw [normalizeScan] at h; exact absurd h (by simp)
  | cons c u1 =>
    obtain ⟨b1, hb1, hc1⟩ := normalizeScan_false_head c u1
    rw [hb1, List.take_succ_cons] at h
    injection h with hc hh
    subst hc
    have hb1f : b1 = false := by
      rcases hc1 with h10 | hf
      · exact absurd h10 (by decide)
      · exact hf
    subst hb1f
    cases u1 with
    | nil => rw [normalizeScan] at hh; exact absurd hh (by simp)
    | cons c2 u2 =>
      obtain ⟨b2, hb2, hc2⟩ := normalizeScan_false_head c2 u2
      rw [hb2, List.take_succ_cons] at hh
      injection hh with hc2h hh
      subst hc2h
      have hb2f : b2 = false := by
        rcases hc2 with h10 | hf
        · exact absurd h10 (by decide)
        · exact hf
      subst hb2f
      cases u2 with
      | nil => rw [normalizeScan] at hh; exact absurd hh (by simp)
      | cons c3 u3 =>
        obtain ⟨b3, hb3, hc3⟩ := normalizeScan_false_head c3 u3
        rw [hb3, List.take_succ_cons] at hh
        injection hh with hc3h hh
        subst hc3h
        rfl

/-- The escaped fragment `\<!--` passes through the scan unchanged, leaving
the flag down. -/
theorem normalizeScan_esc_prefix (b0 : Bool) (tail : List Nat) :
    normalizeScan b0 (92 :: 60 :: 33 :: 45 :: 45 :: tail) =
      92 :: 60 :: 33 :: 45 :: 45 :: normalizeScan false tail := by
  rw [normalizeScan, if_neg (by simp), if_neg (by simp)]
  rw [normalizeScan, if_neg (by simp), if_neg (by simp)]
  rw [normalizeScan, if_neg (by simp), if_neg (by simp)]
  rw [normalizeScan, if_neg (by simp), if_neg (by simp)]
  rw [normalizeScan, if_neg (by simp), if_neg (by simp)]
  rfl

/-- The scan is idempotent, for either initial flag value. -/
theorem normalizeScan_idem (b : Bool) (l : List Nat) :
    normalizeScan b (normalizeScan b l) = normalizeScan b l := by
  cases l with
  | nil =>
    have h0 : normalizeScan b ([] : List Nat) = [] := by rw [normalizeScan]
    rw [h0, h0]
  | cons c rest =>
    by_cases hm : c = 60 ∧ b ∧ rest.take 3 = [33, 45, 45]
    · obtain ⟨hc, hb, ht⟩ := hm
      subst hc
      have hinner : normalizeScan b (60 :: rest) =
          92 :: 60 :: 33 :: 45 :: 45 :: normalizeScan false (rest.drop 3) := by
        rw [normalizeScan, if_pos ⟨rfl, hb, ht⟩]
      rw [hinner, normalizeScan_esc_prefix,
        normalizeScan_idem false (rest.drop 3)]
    · by_cases hws : c = 9 ∨ c = 32
      · have hinner : normalizeScan b (c :: rest) = c :: normalizeScan b rest := by
          rw [normalizeScan, if_neg hm, if_pos hws]
        have houter : ¬ (c = 60 ∧ b ∧ (normalizeScan b rest).take 3 = [33, 45, 45]) := by
          rintro ⟨hc, _, _⟩
          rcases hws with h9 | h32
          · omega
          · omega
        rw [hinner, normalizeScan, if_neg houter, if_pos hws,
          normalizeScan_idem b rest]
      · have hinner : normalizeScan b (c :: rest) =
            c :: normalizeScan (c == 10) rest := by
          rw [normalizeScan, if_neg hm, if_neg hws]
        by_cases h10 : c = 10
        · subst h10
          have houter : ¬ ((10 : Nat) = 60 ∧ b ∧
              (normalizeScan (10 == 10) rest).take 3 = [33, 45, 45]) := by
            rintro ⟨hc, _, _⟩
            exact absurd hc (by decide)
          rw [hinner, normalizeScan, if_neg houter, if_neg hws]
          exact congrArg _ (normalizeScan_idem (10 == 10) rest)
        · have houter : ¬ (c = 60 ∧ b ∧
              (normalizeScan (c == 10) rest).take 3 = [33, 45, 45]) := by
            rintro ⟨hc, hb, htake⟩
            subst hc
            have hfalse : ((60 : Nat) == 10) = false := by decide
            rw [hfalse] at htake
            exact hm ⟨rfl, hb, normalizeScan_false_take3 rest htake⟩
          rw [hinner, normalizeScan, if_neg houter, if_neg hws]
          exact congrArg _ (normalizeScan_idem (c == 10) rest)
termination_by l.length
decreasing_by
  · simp only [List.length_drop, List.length_cons]
    omega
  · simp
  · simp
  · simp

/-- C10: `normalizeMarkdownInput` is idempotent — the backslash inserted
before a line-leading `<!--` prevents the escape pattern from matching a
second time. -/
theorem normalizeMarkdownInput_idem (markdown : List Nat) :
    normalizeMarkdownInput (normalizeMarkdownInput markdown) =
      normalizeMarkdownInput markdown :=
  normalizeScan_idem true markdown

/-! ## Markdown node trees

The parser's output (`stream-markdown-parser`) is dynamic; the renderer's
walks consult `type`, the code-block fields `loading` / `code` /
`language`, and the container shapes `children`, `items`, `rows`, `cells`
(arrays) and `header` (a single object).  Object identity
(`node === streamingLoading`) is modelled by the node's path in the tree:
two nodes of one tree are the same object exactly when they sit at the
same path. -/

/-- Code units of an ASCII string literal. -/
def str (s : String) : List Nat := s.toList.map Char.toNat

/-- A parsed markdown node (the fields the walks consult). -/
inductive MdNode where
  | mk (type : List Nat) (loading : Bool) (code language : List Nat)
      (children items rows cells : List MdNode) (header : Option MdNode)

def MdNode.type : MdNode → List Nat
  | .mk t _ _ _ _ _ _ _ _ => t

def MdNode.loading : MdNode → Bool
  | .mk _ lo _ _ _ _ _ _ _ => lo

def MdNode.code : MdNode → List Nat
  | .mk _ _ co _ _ _ _ _ _ => co

def MdNode.language : MdNode → List Nat
  | .mk _ _ _ la _ _ _ _ _ => la

/-- `inlineNodeTypes` from markdown-node-utils.ts. -/
def inlineNodeTypes : List (List Nat) :=
  [str "text", str "strong", str "emphasis", str "strikethrough",
   str "highlight", str "inline_code", str "link", str "image", str "inline",
   str "hardbreak", str "math_inline", str "footnote_reference",
   str "footnote_anchor", str "reference", str "html_inline"]

mutual
/-- The visit of `findStreamingLoadingCodeBlock`: walk the node (descending
`children`, `items`, `rows`, `cells`, then the `header` object, in source
order), updating the last *block* (non-inline-type) node seen, carried with
its path. -/
def fslcbNode (node : MdNode) (path : List Nat)
    (lb : Option (List Nat × MdNode)) : Option (List Nat × MdNode) :=
  match node with
  | MdNode.mk ty lo co la ch it rw ce hd =>
    let lb1 := if inlineNodeTypes.contains ty then lb
      else some (path, MdNode.mk ty lo co la ch it rw ce hd)
    let lb2 := fslcbList ch (path ++ [0]) 0 lb1
    let lb3 := fslcbList it (path ++ [1]) 0 lb2
    let lb4 := fslcbList rw (path ++ [2]) 0 lb3
    let lb5 := fslcbList ce (path ++ [3]) 0 lb4
    match hd with
    | some h => fslcbNode h (path ++ [4, 0]) lb5
    | none => lb5

def fslcbList (nodes : List MdNode) (base : List Nat) (idx : Nat)
    (lb : Option (List Nat × MdNode)) : Option (List Nat × MdNode) :=
  match nodes with
  | [] => lb
  | n :: rest => fslcbList rest base (idx + 1) (fslcbNode n (base ++ [idx]) lb)
end

/-- `findStreamingLoadingCodeBlock(nodes)` from markdown-node-utils.ts:
return the document-order-last block node if it is a loading `code_block`. -/
def findStreamingLoadingCodeBlock (nodes : List MdNode) :
    Option (List Nat × MdNode) :=
  match fslcbList nodes [] 0 none with
  | some pn =>
    if pn.2.type = str "code_block" ∧ pn.2.loading then some pn else none
  | none => none

/-- The result of the user highlighter: a string (synchronous) or a future. -/
inductive HLResult where
  | sync (highlighted : List Nat)
  | async
deriving DecidableEq, Repr

/-- `Map.set` on an association list: overwrite in place, or append. -/
def mapSet (m : List (List Nat × List Nat)) (k v : List Nat) :
    List (List Nat × List Nat) :=
  if (m.lookup k).isSome then
    m.map (fun kv => if kv.1 = k then (k, v) else kv)
  else m ++ [(k, v)]

/-- The mutable state `scheduleHighlights` touches: the highlight cache, the
in-flight key set, and (for the claims) the list of `(code, language)`
arguments the highlighter was invoked on, in walk order. -/
structure SchedState where
  cache : List (List Nat × List Nat)
  inflight : List (List Nat)
  calls : List (List Nat × List Nat)
deriving DecidableEq, Repr

mutual
/-- The `visit` of `scheduleHighlights`: a `code_block` that is not the tail
loading block has its key computed and, when the key is neither cached nor
in flight nor equal to `skipKey`, the highlighter is invoked (a synchronous
result is cached, a future is recorded in flight); any other node descends
into `children` and `items` only.  An async task's later completion is not
part of the synchronous push and is not modelled here. -/
def schedNode (hl : List Nat → List Nat → HLResult) (skipKey : Option (List Nat))
    (loadingPath : Option (List Nat)) :
    MdNode → List Nat → SchedState → SchedState
  | MdNode.mk ty lo co la ch it _rw _ce _hd, path, st =>
    if ty = str "code_block" then
      if lo ∧ loadingPath = some path then st
      else
        let code := stripTrailingNewline co
        let language := la
        let key := highlightKey code language
        if skipKey = some key then st
        else if (st.cache.lookup key).isSome ∨ key ∈ st.inflight then st
        else
          let st1 : SchedState := { st with calls := st.calls ++ [(code, language)] }
          match hl code language with
          | HLResult.sync s => { st1 with cache := mapSet st1.cache key s }
          | HLResult.async => { st1 with inflight := st1.inflight ++ [key] }
    else
      let st1 := schedList hl skipKey loadingPath ch (path ++ [0]) 0 st
      schedList hl skipKey loadingPath it (path ++ [1]) 0 st1

def schedList (hl : List Nat → List Nat → HLResult) (skipKey : Option (List Nat))
    (loadingPath : Option (List Nat)) :
    List MdNode → List Nat → Nat → SchedState → SchedState
  | [], _, _, st => st
  | n :: rest, base, idx, st =>
    schedList hl skipKey loadingPath rest base (idx + 1)
      (schedNode hl skipKey loadingPath n (base ++ [idx]) st)
end

/-- `scheduleHighlights(nodes, skipKey)` from the stream renderer: no-op
without a highlighter; otherwise resolve the streaming loading block and
walk all top-level nodes. -/
def scheduleHighlights (hl : Option (List Nat → List Nat → HLResult))
    (nodes : List MdNode) (skipKey : Option (List Nat)) (st : SchedState) :
    SchedState :=
  match hl with
  | none => st
  | some highlight =>
    let loadingPath := (findStreamingLoadingCodeBlock nodes).map Prod.fst
    schedList highlight skipKey loadingPath nodes [] 0 st

/-- C6 (amended): the highlight walk reaches code blocks through `children`
and `items` only.  (i) A non-code-block node with empty `children` and
`items` contributes nothing, whatever its `rows`, `cells` and `header`
hold; (ii) a `code_block` that is not the tail loading block, whose key is
not skipped, cached, or in flight, does get the highlighter invoked on its
stripped code and language. -/
theorem schedNode_shapes :
    (∀ (hl : List Nat → List Nat → HLResult) (skipKey loadingPath : Option (List Nat))
        (path : List Nat) (st : SchedState) (ty : List Nat) (lo : Bool)
        (co la : List Nat) (rw ce : List MdNode) (hd : Option MdNode),
        ty ≠ str "code_block" →
        schedNode hl skipKey loadingPath (MdNode.mk ty lo co la [] [] rw ce hd)
          path st = st) ∧
      ∀ (hl : List Nat → List Nat → HLResult) (skipKey loadingPath : Option (List Nat))
        (path : List Nat) (st : SchedState) (ty : List Nat) (lo : Bool)
        (co la : List Nat) (ch it rw ce : List MdNode) (hd : Option MdNode),
        ty = str "code_block" →
        ¬ (lo ∧ loadingPath = some path) →
        skipKey ≠ some (highlightKey (stripTrailingNewline co) la) →
        (st.cache.lookup (highlightKey (stripTrailingNewline co) la)).isSome = false →
        highlightKey (stripTrailingNewline co) la ∉ st.inflight →
        (schedNode hl skipKey loadingPath (MdNode.mk ty lo co la ch it rw ce hd)
            path st).calls = st.calls ++ [(stripTrailingNewline co, la)] := by
  constructor
  · intro hl skipKey loadingPath path st ty lo co la rw ce hd hty
    rw [schedNode, if_neg hty, schedList, schedList]
  · intro hl skipKey loadingPath path st ty lo co la ch it rw ce hd hty hload hskip
      hcache hmem
    rw [schedNode, if_pos hty, if_neg hload,
      if_neg (fun hc => hskip hc), if_neg (by
        rintro (hc | hm)
        · rw [hcache] at hc
          exact absurd hc (by simp)
        · exact hmem hm)]
    dsimp only
    cases hres : hl (stripTrailingNewline co) la <;> rfl

/-- Witness for the amended C6: a paragraph with a table in `rows` is
skipped, and a plain closed code block is invoked. -/
theorem schedNode_shapes_witness :
    schedNode (fun _ _ => HLResult.async) none none
        (MdNode.mk (str "paragraph") false [] [] [] [] [] [] none) [] ⟨[], [], []⟩ =
        ⟨[], [], []⟩ ∧
      (schedNode (fun _ _ => HLResult.async) none none
          (MdNode.mk (str "code_block") false [99] [106] [] [] [] [] none) [0]
          ⟨[], [], []⟩).calls = [] ++ [([99], [106])] :=
  ⟨schedNode_shapes.1 (fun _ _ => HLResult.async) none none [] ⟨[], [], []⟩
      (str "paragraph") false [] [] [] [] none (by decide),
   schedNode_shapes.2 (fun _ _ => HLResult.async) none none [0] ⟨[], [], []⟩
      (str "code_block") false [99] [106] [] [] [] [] none rfl
      (by simp) (by simp) rfl (by simp)⟩

/-- A code block `"c"`/`"js"` nested inside a table: `table.rows[0]` is a
row, `row.cells[0]` is a cell, `cell.children[0]` is the code block. -/
def tableCodeBlock : MdNode :=
  MdNode.mk (str "code_block") false [99] [106] [] [] [] [] none

def tableCell : MdNode :=
  MdNode.mk (str "table_cell") false [] [] [tableCodeBlock] [] [] [] none

def tableRow : MdNode :=
  MdNode.mk (str "table_row") false [] [] [] [] [] [tableCell] none

def tableNode : MdNode :=
  MdNode.mk (str "table") false [] [] [] [] [tableRow] [] none

/-- C6 counterexample: the `findStreamingLoadingCodeBlock` walk does reach
the code block nested in the table (through `rows`, `cells`, `children`),
but `scheduleHighlights` never invokes the highlighter on it — its walk
descends only `children` and `items`, so a code block inside a table is not
highlighted. -/
theorem scheduleHighlights_misses_table_code :
    (fslcbList [tableNode] [] 0 none).map Prod.fst =
        some [0, 2, 0, 3, 0, 0, 0] ∧
      (scheduleHighlights (some (fun _ _ => HLResult.sync [72])) [tableNode]
          none ⟨[], [], []⟩).calls = [] := by
  constructor
  · rfl
  · rfl

/-! ## The stream renderer's `push`

`createMarkdownStreamRenderer(...).push(chunk)` from the stream renderer.
The external collaborators become parameters of the configuration: the
parser (`parseMarkdownToStructure` composed with the fixed `md` and parse
options) and the pure node-tree renderer `renderNodesToAnsi` (with its
fixed render options, `streaming: true`, and the cache-backed highlight
lookup as its remaining argument).  A thrown `Error` becomes
`Except.error`; the three messages become the three constructors. -/

/-- `findLineStart(s, index)` helper: `lastIndexOf('\n', max(0, index-1))`,
searching down from the given start index. -/
def lastIndexOfUpTo (s : List Nat) (c : Nat) : Nat → Option Nat
  | 0 => if s[0]? = some c then some 0 else none
  | j + 1 => if s[j + 1]? = some c then some (j + 1) else lastIndexOfUpTo s c j

/-- `findLineStart(s, index)` from the stream renderer. -/
def findLineStart (s : List Nat) (index : Nat) : Nat :=
  match lastIndexOfUpTo s 10 (index - 1) with
  | some nl => nl + 1
  | none => 0

/-- `rendered.lastIndexOf('```')`: the greatest index where the three
backtick units 96, 96, 96 start, searched down from `j`. -/
def lastFenceIndex (rendered : List Nat) : Nat → Option Nat
  | 0 => if (rendered.drop 0).take 3 = [96, 96, 96] then some 0 else none
  | j + 1 =>
    if (rendered.drop (j + 1)).take 3 = [96, 96, 96] then some (j + 1)
    else lastFenceIndex rendered j

/-- `findLastFenceLineStart(rendered)` from the stream renderer. -/
def findLastFenceLineStart (rendered : List Nat) : Option Nat :=
  match lastFenceIndex rendered rendered.length with
  | some idx => some (findLineStart rendered idx)
  | none => none

/-- The `strategy` option. -/
inductive Strategy
  | smart
  | redraw
deriving DecidableEq, Repr

/-- The three `throw new Error(...)` sites of `push`. -/
inductive PushError
  | locateFenceFailed
  | prefixChanged
  | nonAppendUpdate
deriving DecidableEq, Repr

/-- The fixed configuration of `createMarkdownStreamRenderer`: options plus
the external parser and renderer. -/
structure PushConfig where
  strategy : Strategy
  fullRedrawOnMismatch : Bool
  viewportHeight : Option Int
  highlightFn : Option (List Nat → List Nat → HLResult)
  parseFn : List Nat → List MdNode
  renderFn : List MdNode → Option (List Nat → List Nat → Option (List Nat)) → List Nat

/-- The renderer's mutable state before/after a push.  `pendingKeys`
records the keys of async completed-code tasks registered by `push` (the
`pending` set); their later completions run after `push` returns and are
not modelled. -/
structure RenderState where
  content : List Nat
  lastCodeWasLoading : Bool
  codeStartPos : Option TerminalPos
  surface : SurfaceState
  lastFullRendered : List Nat
  cache : List (List Nat × List Nat)
  inflight : List (List Nat)
  pendingKeys : List (List Nat)
deriving DecidableEq

/-- `typeof completedCodeHighlight === 'string'`. -/
def isSyncResult : Option HLResult → Bool
  | some (HLResult.sync _) => true
  | _ => false

/-- `completedCodeHighlight instanceof Promise`. -/
def isAsyncResult : Option HLResult → Bool
  | some HLResult.async => true
  | _ => false

/-- `renderAll(nodes)`: render with the cache-backed highlight lookup, keep
the full render, and clip it to the viewport.  Returns
`(full, clipped)`. -/
def renderAll (cfg : PushConfig) (cache : List (List Nat × List Nat))
    (nodes : List MdNode) : List Nat × List Nat :=
  let cachedHighlight : Option (List Nat → List Nat → Option (List Nat)) :=
    match cfg.highlightFn with
    | some _ => some (fun code language => cache.lookup (highlightKey code language))
    | none => none
  let full := cfg.renderFn nodes cachedHighlight
  (full, match cfg.viewportHeight with
    | some n => tailLines full n
    | none => full)

/-- The `const` prelude of `push`, in source order: accumulate the chunk,
parse, read the previous render, classify the last node, compute the skip
key, run `scheduleHighlights`, precompute the completed tail code block's
highlight (caching a synchronous result), and render. -/
structure PushCtx where
  content : List Nat
  nodes : List MdNode
  prevRendered : List Nat
  isCode : Bool
  isLoading : Bool
  prevCodeWasLoading : Bool
  schedInflight : List (List Nat)
  completedCodeKey : Option (List Nat)
  completedCodeHighlight : Option HLResult
  cacheAfter : List (List Nat × List Nat)
  full : List Nat
  rendered : List Nat

def pushCtx (cfg : PushConfig) (st : RenderState) (chunk : List Nat) : PushCtx :=
  let content := st.content ++ chunk
  let nodes := cfg.parseFn (normalizeMarkdownInput content)
  let prevRendered := st.surface.text
  let lastNode := nodes.getLast?
  let isCode : Bool := match lastNode with
    | some n => n.type == str "code_block"
    | none => false
  let isLoading : Bool := if isCode then
      match lastNode with
      | some n => n.loading
      | none => false
    else false
  let prevCodeWasLoading := st.lastCodeWasLoading
  let skipHighlightKey : Option (List Nat) :=
    if cfg.highlightFn.isSome ∧ isCode ∧ isLoading = false ∧ prevCodeWasLoading then
      match lastNode with
      | some n => some (highlightKey (stripTrailingNewline n.code) n.language)
      | none => none
    else none
  let schedSt := scheduleHighlights cfg.highlightFn nodes skipHighlightKey
      ⟨st.cache, st.inflight, []⟩
  let completedCodeKey : Option (List Nat) :=
    if cfg.highlightFn.isSome ∧ isCode ∧ isLoading = false ∧ prevCodeWasLoading then
      match lastNode with
      | some n => some (highlightKey (stripTrailingNewline n.code) n.language)
      | none => none
    else none
  let completedCodeHighlight : Option HLResult :=
    if cfg.highlightFn.isSome ∧ isCode ∧ isLoading = false ∧ prevCodeWasLoading then
      match lastNode, cfg.highlightFn with
      | some n, some highlight =>
        some (highlight (stripTrailingNewline n.code) n.language)
      | _, _ => none
    else none
  let cacheAfter : List (List Nat × List Nat) :=
    match completedCodeKey, completedCodeHighlight with
    | some key, some (HLResult.sync s) => mapSet schedSt.cache key s
    | _, _ => schedSt.cache
  let renderPair := renderAll cfg cacheAfter nodes
  ⟨content, nodes, prevRendered, isCode, isLoading, prevCodeWasLoading,
    schedSt.inflight, completedCodeKey, completedCodeHighlight, cacheAfter,
    renderPair.1, renderPair.2⟩

/-- The code shared by every non-returning case of `push` ("after the case,
unless a case already returned its own patch"): `redraw` rewrites
everything; `smart` appends when the new render extends the previous one,
falls back to a full redraw under `fullRedrawOnMismatch`, and raises
otherwise. -/
def pushTail (cfg : PushConfig) (stT : RenderState)
    (prevRendered rendered : List Nat) :
    Except PushError (List Nat × RenderState) :=
  if cfg.strategy = Strategy.redraw then
    let ps := surfSetText stT.surface rendered
    Except.ok (ps.1, { stT with surface := ps.2 })
  else if prevRendered.isPrefixOf rendered then
    let delta := rendered.drop prevRendered.length
    let ps := surfAppend stT.surface delta
    Except.ok (ps.1, { stT with surface := ps.2 })
  else if cfg.fullRedrawOnMismatch = false then
    Except.error PushError.nonAppendUpdate
  else
    let ps := surfSetText stT.surface rendered
    Except.ok (ps.1, { stT with
      lastCodeWasLoading := false
      codeStartPos := none
      surface := ps.2 })

/-- `push(chunk)`. -/
def push (cfg : PushConfig) (st : RenderState) (chunk : List Nat) :
    Except PushError (List Nat × RenderState) :=
  let ctx := pushCtx cfg st chunk
  let st0 : RenderState := { st with
    content := ctx.content
    cache := ctx.cacheAfter
    inflight := ctx.schedInflight
    lastFullRendered := ctx.full }
  if ctx.isCode ∧ ctx.isLoading then
    let st1 := { st0 with lastCodeWasLoading := true }
    let st2 := if ctx.prevCodeWasLoading = false then
        { st1 with codeStartPos :=
          match findLastFenceLineStart ctx.rendered with
          | none => none
          | some startIndex =>
            if cfg.strategy = Strategy.redraw then none
            else some (indexToPos ctx.rendered startIndex) }
      else st1
    pushTail cfg st2 ctx.prevRendered ctx.rendered
  else if cfg.highlightFn.isSome ∧ ctx.isCode ∧ ctx.isLoading = false ∧
      ctx.prevCodeWasLoading ∧ isSyncResult ctx.completedCodeHighlight then
    let st1 := { st0 with lastCodeWasLoading := false }
    if cfg.strategy = Strategy.redraw then
      let ps := surfSetText st1.surface ctx.rendered
      Except.ok (ps.1, { st1 with codeStartPos := none, surface := ps.2 })
    else
      match st.codeStartPos with
      | none =>
        if cfg.fullRedrawOnMismatch = false then
          Except.error PushError.locateFenceFailed
        else
          let ps := surfSetText st1.surface ctx.rendered
          Except.ok (ps.1, { st1 with
            lastCodeWasLoading := false
            codeStartPos := none
            surface := ps.2 })
      | some startPos =>
        let startIndexPrev := posToIndex ctx.prevRendered startPos
        if ctx.rendered.take startIndexPrev ≠ ctx.prevRendered.take startIndexPrev then
          if cfg.fullRedrawOnMismatch = false then
            Except.error PushError.prefixChanged
          else
            let ps := surfSetText st1.surface ctx.rendered
            Except.ok (ps.1, { st1 with
              lastCodeWasLoading := false
              codeStartPos := none
              surface := ps.2 })
        else
          let ps := surfSetTextFrom st1.surface ctx.rendered startPos
          Except.ok (ps.1, { st1 with codeStartPos := none, surface := ps.2 })
  else if cfg.highlightFn.isSome ∧ ctx.isCode ∧ ctx.isLoading = false ∧
      ctx.prevCodeWasLoading ∧ isAsyncResult ctx.completedCodeHighlight then
    let st1 := { st0 with
      lastCodeWasLoading := false
      codeStartPos := none
      pendingKeys := st0.pendingKeys ++ ctx.completedCodeKey.toList }
    pushTail cfg st1 ctx.prevRendered ctx.rendered
  else
    let st1 := { st0 with lastCodeWasLoading := false, codeStartPos := none }
    pushTail cfg st1 ctx.prevRendered ctx.rendered

theorem strategy_not_redraw_iff (s : Strategy) :
    ¬ s = Strategy.redraw ↔ s = Strategy.smart := by
  cases s <;> simp

/-- The common tail raises exactly under `smart`, no fallback, and a
non-append render. -/
theorem pushTail_error_iff (cfg : PushConfig) (stT : RenderState)
    (prevRendered rendered : List Nat) :
    (∃ e, pushTail cfg stT prevRendered rendered = Except.error e) ↔
      (cfg.strategy = Strategy.smart ∧ cfg.fullRedrawOnMismatch = false ∧
        ¬ prevRendered.isPrefixOf rendered) := by
  unfold pushTail
  by_cases hs : cfg.strategy = Strategy.redraw
  · rw [if_pos hs]
    simp [hs]
  · rw [if_neg hs]
    rw [strategy_not_redraw_iff] at hs
    by_cases hp : prevRendered.isPrefixOf rendered
    · rw [if_pos hp]
      simp [hp]
    · rw [if_neg hp]
      by_cases hf : cfg.fullRedrawOnMismatch = false
      · rw [if_pos hf]
        exact iff_of_true ⟨PushError.nonAppendUpdate, rfl⟩ ⟨hs, hf, hp⟩
      · rw [if_neg hf]
        simp [hf]

/-- `push` raises exactly under strategy `smart` with the fallback
disabled, when either the just-closed tail code block's synchronous
in-place rewrite cannot apply (missing start position or changed prefix),
or, outside that branch, the new clipped render does not extend the
previous one. -/
theorem push_raises_iff (cfg : PushConfig) (st : RenderState) (chunk : List Nat) :
    (∃ e, push cfg st chunk = Except.error e) ↔
      (cfg.strategy = Strategy.smart ∧ cfg.fullRedrawOnMismatch = false ∧
        (((cfg.highlightFn.isSome ∧ (pushCtx cfg st chunk).isCode ∧
            (pushCtx cfg st chunk).isLoading = false ∧
            (pushCtx cfg st chunk).prevCodeWasLoading ∧
            isSyncResult (pushCtx cfg st chunk).completedCodeHighlight) ∧
          (st.codeStartPos = none ∨
            ∃ sp, st.codeStartPos = some sp ∧
              (pushCtx cfg st chunk).rendered.take
                  (posToIndex (pushCtx cfg st chunk).prevRendered sp) ≠
                (pushCtx cfg st chunk).prevRendered.take
                  (posToIndex (pushCtx cfg st chunk).prevRendered sp))) ∨
        (¬ (cfg.highlightFn.isSome ∧ (pushCtx cfg st chunk).isCode ∧
            (pushCtx cfg st chunk).isLoading = false ∧
            (pushCtx cfg st chunk).prevCodeWasLoading ∧
            isSyncResult (pushCtx cfg st chunk).completedCodeHighlight) ∧
          ¬ (pushCtx cfg st chunk).prevRendered.isPrefixOf
              (pushCtx cfg st chunk).rendered))) := by
  unfold push
  generalize pushCtx cfg st chunk = c
  by_cases h1 : c.isCode ∧ c.isLoading
  · rw [if_pos h1]
    have hnsync : ¬ (cfg.highlightFn.isSome ∧ c.isCode ∧ c.isLoading = false ∧
        c.prevCodeWasLoading ∧ isSyncResult c.completedCodeHighlight) := by
      rintro ⟨-, -, hfalse, -, -⟩
      rw [h1.2] at hfalse
      exact absurd hfalse (by simp)
    rw [pushTail_error_iff]
    constructor
    · rintro ⟨hs, hf, hp⟩
      exact ⟨hs, hf, Or.inr ⟨hnsync, hp⟩⟩
    · rintro ⟨hs, hf, hor⟩
      refine ⟨hs, hf, ?_⟩
      rcases hor with ⟨hsy, -⟩ | ⟨-, hp⟩
      · exact absurd hsy hnsync
      · exact hp
  · rw [if_neg h1]
    by_cases h2 : cfg.highlightFn.isSome ∧ c.isCode ∧ c.isLoading = false ∧
        c.prevCodeWasLoading ∧ isSyncResult c.completedCodeHighlight
    · rw [if_pos h2]
      by_cases hsred : cfg.strategy = Strategy.redraw
      · rw [if_pos hsred]
        simp [hsred]
      · rw [if_neg hsred]
        rw [strategy_not_redraw_iff] at hsred
        cases hsp : st.codeStartPos with
        | none =>
          dsimp only
          by_cases hf : cfg.fullRedrawOnMismatch = false
          · rw [if_pos hf]
            exact iff_of_true ⟨PushError.locateFenceFailed, rfl⟩
              ⟨hsred, hf, Or.inl ⟨h2, Or.inl rfl⟩⟩
          · rw [if_neg hf]
            simp [hf]
        | some sp =>
          dsimp only
          by_cases hmis : c.rendered.take (posToIndex c.prevRendered sp) ≠
              c.prevRendered.take (posToIndex c.prevRendered sp)
          · rw [if_pos hmis]
            by_cases hf : cfg.fullRedrawOnMismatch = false
            · rw [if_pos hf]
              exact iff_of_true ⟨PushError.prefixChanged, rfl⟩
                ⟨hsred, hf, Or.inl ⟨h2, Or.inr ⟨sp, rfl, hmis⟩⟩⟩
            · rw [if_neg hf]
              simp [hf]
          · rw [if_neg hmis]
            refine iff_of_false (by rintro ⟨e, he⟩; exact absurd he (by simp)) ?_
            rintro ⟨hs, hf, hor⟩
            rcases hor with ⟨-, hcase⟩ | ⟨hnsy, -⟩
            · rcases hcase with hnone | ⟨sp', hsp', hmis'⟩
              · exact absurd hnone (by simp)
              · cases Option.some.inj hsp'
                exact hmis hmis'
            · exact hnsy h2
    · rw [if_neg h2]
      have hiff : ∀ stT : RenderState,
          (∃ e, pushTail cfg stT c.prevRendered c.rendered = Except.error e) ↔
            (cfg.strategy = Strategy.smart ∧ cfg.fullRedrawOnMismatch = false ∧
              (((cfg.highlightFn.isSome ∧ c.isCode ∧ c.isLoading = false ∧
                  c.prevCodeWasLoading ∧ isSyncResult c.completedCodeHighlight) ∧
                (st.codeStartPos = none ∨
                  ∃ sp, st.codeStartPos = some sp ∧
                    c.rendered.take (posToIndex c.prevRendered sp) ≠
                      c.prevRendered.take (posToIndex c.prevRendered sp))) ∨
              (¬ (cfg.highlightFn.isSome ∧ c.isCode ∧ c.isLoading = false ∧
                  c.prevCodeWasLoading ∧ isSyncResult c.completedCodeHighlight) ∧
                ¬ c.prevRendered.isPrefixOf c.rendered))) := by
        intro stT
        rw [pushTail_error_iff]
        constructor
        · rintro ⟨hs, hf, hp⟩
          exact ⟨hs, hf, Or.inr ⟨h2, hp⟩⟩
        · rintro ⟨hs, hf, hor⟩
          refine ⟨hs, hf, ?_⟩
          rcases hor with ⟨hsy, -⟩ | ⟨-, hp⟩
          · exact absurd hsy h2
          · exact hp
      split
      · exact hiff _
      · exact hiff _

/-- With strategy `smart`, the fallback enabled and a non-append render,
the common tail resolves to a full `surface.setText` of the new render
(resetting the loading flag and start position). -/
theorem pushTail_fallback (cfg : PushConfig) (stT : RenderState)
    (prevRendered rendered : List Nat)
    (hs : cfg.strategy = Strategy.smart) (hf : cfg.fullRedrawOnMismatch = true)
    (hp : ¬ prevRendered.isPrefixOf rendered) :
    pushTail cfg stT prevRendered rendered = Except.ok
      ((surfSetText stT.surface rendered).1,
        { stT with
          lastCodeWasLoading := false
          codeStartPos := none
          surface := (surfSetText stT.surface rendered).2 }) := by
  unfold pushTail
  rw [if_neg (by rw [hs]; simp), if_neg hp, if_neg (by rw [hf]; simp)]

/-- C7 (amended): `push` raises an error exactly when the strategy is
`smart`, `fullRedrawOnMismatch` is disabled, and either (a) the tail code
block just closed with a synchronous highlight but the in-place rewrite
cannot apply — the recorded start position is missing, or the prefix before
it changed — or (b) no such synchronous rewrite is in progress and the new
clipped render does not start with the previously displayed render.
Case (a) can fire even when the new render extends the previous one, so
"does not start with the previous render" is not part of that case.  With
`fullRedrawOnMismatch` enabled `push` never raises: in those same
situations it instead resolves to a full `surface.setText` of the new
clipped render — the second conjunct returns exactly the `setText` patch
against the pre-push surface, leaves the surface in the `setText` state,
and clears the loading flag and the recorded start position. -/
theorem push_error_characterization (cfg : PushConfig) (st : RenderState)
    (chunk : List Nat) :
    ((∃ e, push cfg st chunk = Except.error e) ↔
      (cfg.strategy = Strategy.smart ∧ cfg.fullRedrawOnMismatch = false ∧
        (((cfg.highlightFn.isSome ∧ (pushCtx cfg st chunk).isCode ∧
            (pushCtx cfg st chunk).isLoading = false ∧
            (pushCtx cfg st chunk).prevCodeWasLoading ∧
            isSyncResult (pushCtx cfg st chunk).completedCodeHighlight) ∧
          (st.codeStartPos = none ∨
            ∃ sp, st.codeStartPos = some sp ∧
              (pushCtx cfg st chunk).rendered.take
                  (posToIndex (pushCtx cfg st chunk).prevRendered sp) ≠
                (pushCtx cfg st chunk).prevRendered.take
                  (posToIndex (pushCtx cfg st chunk).prevRendered sp))) ∨
        (¬ (cfg.highlightFn.isSome ∧ (pushCtx cfg st chunk).isCode ∧
            (pushCtx cfg st chunk).isLoading = false ∧
            (pushCtx cfg st chunk).prevCodeWasLoading ∧
            isSyncResult (pushCtx cfg st chunk).completedCodeHighlight) ∧
          ¬ (pushCtx cfg st chunk).prevRendered.isPrefixOf
              (pushCtx cfg st chunk).rendered)))) ∧
    (cfg.strategy = Strategy.smart → cfg.fullRedrawOnMismatch = true →
      (((cfg.highlightFn.isSome ∧ (pushCtx cfg st chunk).isCode ∧
          (pushCtx cfg st chunk).isLoading = false ∧
          (pushCtx cfg st chunk).prevCodeWasLoading ∧
          isSyncResult (pushCtx cfg st chunk).completedCodeHighlight) ∧
        (st.codeStartPos = none ∨
          ∃ sp, st.codeStartPos = some sp ∧
            (pushCtx cfg st chunk).rendered.take
                (posToIndex (pushCtx cfg st chunk).prevRendered sp) ≠
              (pushCtx cfg st chunk).prevRendered.take
                (posToIndex (pushCtx cfg st chunk).prevRendered sp))) ∨
      (¬ (cfg.highlightFn.isSome ∧ (pushCtx cfg st chunk).isCode ∧
          (pushCtx cfg st chunk).isLoading = false ∧
          (pushCtx cfg st chunk).prevCodeWasLoading ∧
          isSyncResult (pushCtx cfg st chunk).completedCodeHighlight) ∧
        ¬ (pushCtx cfg st chunk).prevRendered.isPrefixOf
            (pushCtx cfg st chunk).rendered)) →
      ∃ st' : RenderState,
        push cfg st chunk = Except.ok
          ((surfSetText st.surface (pushCtx cfg st chunk).rendered).1, st') ∧
        st'.surface = (surfSetText st.surface (pushCtx cfg st chunk).rendered).2 ∧
        st'.lastCodeWasLoading = false ∧ st'.codeStartPos = none) := by
  refine ⟨push_raises_iff cfg st chunk, ?_⟩
  intro hs hf herr
  unfold push
  set c := pushCtx cfg st chunk with hc
  dsimp only
  by_cases h1 : c.isCode ∧ c.isLoading
  · rw [if_pos h1]
    have hnsync : ¬ (cfg.highlightFn.isSome ∧ c.isCode ∧ c.isLoading = false ∧
        c.prevCodeWasLoading ∧ isSyncResult c.completedCodeHighlight) := by
      rintro ⟨-, -, hfalse, -, -⟩
      rw [h1.2] at hfalse
      exact absurd hfalse (by simp)
    have hp : ¬ c.prevRendered.isPrefixOf c.rendered := by
      rcases herr with ⟨hsy, -⟩ | ⟨-, hp⟩
      · exact absurd hsy hnsync
      · exact hp
    split
    · exact ⟨_, pushTail_fallback cfg _ _ _ hs hf hp, rfl, rfl, rfl⟩
    · exact ⟨_, pushTail_fallback cfg _ _ _ hs hf hp, rfl, rfl, rfl⟩
  · rw [if_neg h1]
    by_cases h2 : cfg.highlightFn.isSome ∧ c.isCode ∧ c.isLoading = false ∧
        c.prevCodeWasLoading ∧ isSyncResult c.completedCodeHighlight
    · rw [if_pos h2, if_neg (by rw [hs]; simp)]
      cases hsp : st.codeStartPos with
      | none =>
        dsimp only
        rw [if_neg (by rw [hf]; simp)]
        exact ⟨_, rfl, rfl, rfl, rfl⟩
      | some sp =>
        dsimp only
        have hmis : c.rendered.take (posToIndex c.prevRendered sp) ≠
            c.prevRendered.take (posToIndex c.prevRendered sp) := by
          rcases herr with ⟨-, hcase⟩ | ⟨hnsy, -⟩
          · rcases hcase with hnone | ⟨sp', hsp', hmis'⟩
            · rw [hsp] at hnone
              exact absurd hnone (by simp)
            · rw [hsp] at hsp'
              cases Option.some.inj hsp'
              exact hmis'
          · exact absurd h2 hnsy
        rw [if_pos hmis, if_neg (by rw [hf]; simp)]
        exact ⟨_, rfl, rfl, rfl, rfl⟩
    · rw [if_neg h2]
      have hp : ¬ c.prevRendered.isPrefixOf c.rendered := by
        rcases herr with ⟨hsy, -⟩ | ⟨-, hp⟩
        · exact absurd hsy h2
        · exact hp
      split
      · exact ⟨_, pushTail_fallback cfg _ _ _ hs hf hp, rfl, rfl, rfl⟩
      · exact ⟨_, pushTail_fallback cfg _ _ _ hs hf hp, rfl, rfl, rfl⟩

/-- A synchronous highlighter returning `"H"`. -/
def ceHighlighter : List Nat → List Nat → HLResult := fun _ _ => HLResult.sync [72]

/-- A parser whose output ends in a closed (`loading = false`) code block. -/
def ceParse : List Nat → List MdNode := fun _ =>
  [MdNode.mk (str "code_block") false [99] [] [] [] [] [] none]

/-- A renderer producing `"X"`. -/
def ceRender :
    List MdNode → Option (List Nat → List Nat → Option (List Nat)) → List Nat :=
  fun _ _ => [88]

/-- Strategy `smart`, `fullRedrawOnMismatch` disabled, no viewport. -/
def ceConfig : PushConfig :=
  ⟨Strategy.smart, false, none, some ceHighlighter, ceParse, ceRender⟩

/-- A state in which the tail code block was loading but no start position
was recorded (as happens when the opening fence was clipped out of the
viewport), with an empty surface. -/
def ceState : RenderState :=
  ⟨[], true, none, ⟨[], false, AnchorMode.cursor⟩, [], [], [], []⟩

unseal normalizeScan in
/-- C7 counterexample: on this push the new clipped render (`"X"`) does
start with the previously displayed render (`""`), yet `push` raises (the
just-closed code block's rewrite has no recorded start position and
`fullRedrawOnMismatch` is disabled) — so "the new clipped render does not
start with the previously displayed render" is not part of an exact
characterisation of the error. -/
theorem push_error_despite_append :
    push ceConfig ceState [97] = Except.error PushError.locateFenceFailed ∧
      (pushCtx ceConfig ceState [97]).prevRendered.isPrefixOf
          (pushCtx ceConfig ceState [97]).rendered = true := by
  constructor
  · rfl
  · rfl

/-- The same configuration as `ceConfig` but with `fullRedrawOnMismatch`
enabled. -/
def ceConfigFR : PushConfig :=
  ⟨Strategy.smart, true, none, some ceHighlighter, ceParse, ceRender⟩

unseal normalizeScan in
/-- Witness for the amended C7 fallback clause: with `fullRedrawOnMismatch`
enabled, the same situation that raised in `push_error_despite_append`
resolves to a full `surface.setText` of the new render. -/
theorem push_error_characterization_witness :
    ∃ st' : RenderState,
      push ceConfigFR ceState [97] = Except.ok
        ((surfSetText ceState.surface
            (pushCtx ceConfigFR ceState [97]).rendered).1, st') ∧
      st'.surface = (surfSetText ceState.surface
          (pushCtx ceConfigFR ceState [97]).rendered).2 ∧
      st'.lastCodeWasLoading = false ∧ st'.codeStartPos = none :=
  (push_error_characterization ceConfigFR ceState [97]).2 rfl rfl
    (Or.inl ⟨⟨rfl, rfl, rfl, rfl, rfl⟩, Or.inl rfl⟩)

end Markstream
